import Mathlib

/-!
Verification of the shortest-path core of the `graph` package (src/path.go).

The package computes single-source shortest paths with Dijkstra's method over
a pluggable cost queue (`DistQueue`).  The relaxation engine
(`ShortestPaths`, `shortestPathWithQueue`, `pathFinder.Do`) and the path
reconstructor (`ShortestPathWithQueue`) are embedded below from the source.
Two collaborators are not part of the source file and are modelled from the
spec: the graph `Iterator` (spec §6, an adjacency structure with `Order` and
per-vertex edge visitation) and the concrete `dijkstraQueue` (spec §4.1, a
binary min-heap bound to the shared `dist` slice; `Push`/`Fix` write the new
cost through the shared slice, `Pop` removes a vertex of minimal cost).

Machine integers: Go `int64` distances are modelled as `Int`; the algorithm
keeps all distances in `[0, sum of weights]`, far from overflow, and no claim
concerns wrap-around.
-/

set_option maxHeartbeats 1000000

namespace GraphSP

/-- Read index `i` of a Go slice of `int64`/`int` modelled as a list; reads
out of range give the sentinel `-1` (verified runs stay in bounds). -/
def lget (l : List Int) (i : Nat) : Int := l.getD i (-1)

/-- Write index `i` of a Go slice modelled as a list (no-op out of range;
verified runs stay in bounds). -/
def lset (l : List Int) (i : Nat) (x : Int) : List Int := l.set i x

theorem lget_nil (i : Nat) : lget [] i = -1 := by cases i <;> rfl

theorem lget_cons_zero (a : Int) (l : List Int) : lget (a :: l) 0 = a := rfl

theorem lget_cons_succ (a : Int) (l : List Int) (i : Nat) :
    lget (a :: l) (i + 1) = lget l i := rfl

theorem length_lset (l : List Int) (i : Nat) (x : Int) :
    (lset l i x).length = l.length := List.length_set ..

theorem lget_lset_eq : ∀ (l : List Int) (i : Nat) (x : Int),
    i < l.length → lget (lset l i x) i = x
  | [], i, _, h => absurd h (Nat.not_lt_zero i)
  | _ :: _, 0, _, _ => rfl
  | _ :: l, i + 1, x, h => lget_lset_eq l i x (Nat.lt_of_succ_lt_succ h)

theorem lget_lset_ne : ∀ (l : List Int) (i j : Nat) (x : Int),
    i ≠ j → lget (lset l i x) j = lget l j
  | [], _, j, _, _ => by cases j <;> rfl
  | _ :: _, 0, 0, _, h => absurd rfl h
  | _ :: _, 0, _ + 1, _, _ => rfl
  | _ :: _, _ + 1, 0, _, _ => rfl
  | _ :: l, i + 1, j + 1, x, h =>
    lget_lset_ne l i j x (fun hh => h (by omega))

theorem lget_replicate : ∀ (n i : Nat), lget (List.replicate n (-1)) i = -1
  | 0, i => lget_nil i
  | _ + 1, 0 => rfl
  | n + 1, i + 1 => lget_replicate n i

theorem lget_oob : ∀ (l : List Int) (i : Nat), l.length ≤ i → lget l i = -1
  | [], i, _ => lget_nil i
  | _ :: _, 0, h => absurd h (by simp)
  | _ :: l, i + 1, h => lget_oob l i (by simpa using h)

/-- Modelled from the spec: the graph `Iterator` collaborator (spec §6,
"Traversal Source").  `adj` lists the outgoing edges `(neighbor, weight)` of
each vertex; `Order` is the vertex count; edge visitation enumerates the
adjacency list in order. -/
structure Graph where
  adj : List (List (Nat × Int))

/-- `g.Order()`: the number of vertices. -/
def Graph.Order (g : Graph) : Nat := g.adj.length

/-- The outgoing edges of `v` (empty for out-of-range `v`). -/
def Graph.adjList (g : Graph) (v : Nat) : List (Nat × Int) := g.adj.getD v []

/-- Iterator well-formedness (spec §6): every edge target lies in the valid
index range `[0, Order)`. -/
def Graph.WF (g : Graph) : Prop := ∀ l ∈ g.adj, ∀ e ∈ l, e.1 < g.Order

/-- All edge weights of the graph are non-negative. -/
def Graph.Nonneg (g : Graph) : Prop := ∀ l ∈ g.adj, ∀ e ∈ l, 0 ≤ e.2

instance (g : Graph) : Decidable g.WF :=
  inferInstanceAs (Decidable (∀ l ∈ g.adj, ∀ e ∈ l, e.1 < g.Order))

instance (g : Graph) : Decidable g.Nonneg :=
  inferInstanceAs (Decidable (∀ l ∈ g.adj, ∀ e ∈ l, 0 ≤ e.2))

/-- Remove one occurrence of the edge `e` leaving vertex `u`. -/
def Graph.eraseEdge (g : Graph) (u : Nat) (e : Nat × Int) : Graph :=
  ⟨g.adj.set u ((g.adjList u).erase e)⟩

theorem getD_mem_or : ∀ (L : List (List (Nat × Int))) (u : Nat),
    L.getD u [] ∈ L ∨ L.getD u [] = []
  | [], u => Or.inr (by cases u <;> rfl)
  | l :: L, 0 => Or.inl (List.mem_cons_self l L)
  | _ :: L, u + 1 => (getD_mem_or L u).imp (List.mem_cons_of_mem _) id

theorem Graph.wf_target {g : Graph} (hwf : g.WF) {u : Nat} {e : Nat × Int}
    (h : e ∈ g.adjList u) : e.1 < g.Order := by
  rcases getD_mem_or g.adj u with hm | hm
  · exact hwf _ hm _ h
  · rw [Graph.adjList, hm] at h; cases h

theorem Graph.nonneg_weight {g : Graph} (hnn : g.Nonneg) {u : Nat}
    {e : Nat × Int} (h : e ∈ g.adjList u) : 0 ≤ e.2 := by
  rcases getD_mem_or g.adj u with hm | hm
  · exact hnn _ hm _ h
  · rw [Graph.adjList, hm] at h; cases h

theorem Graph.adjList_ne_nil_lt {g : Graph} {u : Nat} {e : Nat × Int}
    (h : e ∈ g.adjList u) : u < g.Order := by
  by_contra hu
  have : g.adjList u = [] := by
    rw [Graph.adjList]
    exact List.getD_eq_default _ _ (by simpa [Graph.Order] using hu)
  rw [this] at h; cases h

/-- `PathW g s w d`: some path from `s` to `w` using only edges of
non-negative weight has total weight `d`. -/
inductive PathW (g : Graph) (s : Nat) : Nat → Int → Prop
  | nil : PathW g s s 0
  | cons {u w : Nat} {c d : Int} :
      PathW g s u d → (w, c) ∈ g.adjList u → 0 ≤ c → PathW g s w (d + c)

/-- `Chain g p d`: consecutive elements of the vertex sequence `p` are joined
by edges of `g` whose weights sum to `d`. -/
inductive Chain (g : Graph) : List Nat → Int → Prop
  | single (v : Nat) : Chain g [v] 0
  | cons {u w : Nat} {c d : Int} {rest : List Nat} :
      (w, c) ∈ g.adjList u → Chain g (w :: rest) d → Chain g (u :: w :: rest) (c + d)

/-- The state of one search run: the shared `dist` slice, the `parent` slice,
and the contents of the cost queue.  Modelled from the spec: the concrete
`dijkstraQueue` is not in the source file; per spec §4.1 and the `DistQueue`
contract its observable state is the set of queued (unfinalized) vertices,
kept here in insertion order, with priorities read from the shared `dist`
slice. -/
structure PFState where
  dist : List Int
  parent : List Int
  queue : List Nat

@[simp] theorem PFState.mk_dist (a b : List Int) (c : List Nat) :
    (PFState.mk a b c).dist = a := rfl

@[simp] theorem PFState.mk_parent (a b : List Int) (c : List Nat) :
    (PFState.mk a b c).parent = b := rfl

@[simp] theorem PFState.mk_queue (a b : List Int) (c : List Nat) :
    (PFState.mk a b c).queue = c := rfl

/-- Modelled from the spec: `Pop` of the cost queue (spec §4.1 `PopMin`) —
remove and return a vertex of smallest current cost, reading costs from the
shared `dist` slice; ties are broken arbitrarily (this model takes the
earliest-inserted minimum). -/
def popMin (dist : List Int) : List Nat → Option (Nat × List Nat)
  | [] => none
  | v :: rest =>
    match popMin dist rest with
    | none => some (v, [])
    | some (u, rest') =>
      if lget dist v ≤ lget dist u then some (v, rest) else some (u, v :: rest')

/-- `pathFinder.Do` (src/path.go:106-120).  `p.q.Push(w, alt)` and
`p.q.Fix(w, alt)` write `alt` through the shared `dist` slice (the
`DistQueue` contract, src/path.go:43-60); `Push` additionally inserts `w`
into the queue. -/
def pfDo (v : Nat) (s : PFState) (w : Nat) (d : Int) : PFState :=
  if d < 0 then s
  else
    let alt := lget s.dist v + d
    if lget s.dist w = -1 then
      ⟨lset s.dist w alt, lset s.parent w (v : Int), s.queue ++ [w]⟩
    else if alt < lget s.dist w then
      ⟨lset s.dist w alt, lset s.parent w (v : Int), s.queue⟩
    else s

/-- `g.Visit(v, do)`: apply `pathFinder.Do` to each outgoing edge of `v` in
order (`Do` never requests early stop). -/
def visit (g : Graph) (v : Nat) (s : PFState) : PFState :=
  (g.adjList v).foldl (fun s e => pfDo v s e.1 e.2) s

/-- The main loop of `ShortestPaths` (src/path.go:35-39), with an explicit
iteration bound (each loop iteration pops one vertex and every vertex is
pushed at most once, so `Order` iterations always reach the empty queue; see
the queue-emptiness lemmas below).  Also records the pop sequence. -/
def dijkstraLoop (g : Graph) : Nat → PFState → PFState × List Nat
  | 0, s => (s, [])
  | fuel + 1, s =>
    match popMin s.dist s.queue with
    | none => (s, [])
    | some (v, rest) =>
      let r := dijkstraLoop g fuel (visit g v ⟨s.dist, s.parent, rest⟩)
      (r.1, v :: r.2)

/-- The main loop of `shortestPathWithQueue` (src/path.go:88-96): identical,
but returns the moment the popped vertex equals the target `t`. -/
def dijkstraLoopT (g : Graph) (t : Nat) : Nat → PFState → PFState × List Nat
  | 0, s => (s, [])
  | fuel + 1, s =>
    match popMin s.dist s.queue with
    | none => (s, [])
    | some (v, rest) =>
      if v = t then (⟨s.dist, s.parent, rest⟩, [v])
      else
        let r := dijkstraLoopT g t fuel (visit g v ⟨s.dist, s.parent, rest⟩)
        (r.1, v :: r.2)

/-- The state before the main loop: `dist[i] = parent[i] = -1` for all `i`,
then `q.Push(v, 0)` sets `dist[v] = 0` and enqueues `v`
(src/path.go:24-32 and 78-86). -/
def initState (n v : Nat) : PFState :=
  ⟨lset (List.replicate n (-1)) v 0, List.replicate n (-1), [v]⟩

/-- The full run of `ShortestPaths g v`: final state and pop sequence. -/
def SPRun (g : Graph) (v : Nat) : PFState × List Nat :=
  dijkstraLoop g g.Order (initState g.Order v)

/-- `ShortestPaths(g, v)` (src/path.go:23-41): returns `(parent, dist)`. -/
def ShortestPaths (g : Graph) (v : Nat) : List Int × List Int :=
  ((SPRun g v).1.parent, (SPRun g v).1.dist)

/-- The run of the single-target loop of `shortestPathWithQueue g v w`. -/
def STRun (g : Graph) (v w : Nat) : PFState × List Nat :=
  dijkstraLoopT g w g.Order (initState g.Order v)

/-- `shortestPathWithQueue(g, q, v, w)` (src/path.go:77-97) with the default
`dijkstraQueue`: returns `(parent, dist)`. -/
def shortestPathWithQueue (g : Graph) (v w : Nat) : List Int × List Int :=
  ((STRun g v w).1.parent, (STRun g v w).1.dist)

/-- The reconstruction loop `for v := w; v != -1; v = parent[v]`
(src/path.go:68-70), collecting vertices target-first; fueled (verified runs
reach `-1` within `Order` steps). -/
def buildPath (parent : List Int) : Nat → Int → List Nat → List Nat
  | 0, _, acc => acc
  | fuel + 1, x, acc =>
    if x = -1 then acc
    else buildPath parent fuel (lget parent x.toNat) (acc ++ [x.toNat])

/-- `ShortestPathWithQueue(g, q, v, w)` (src/path.go:62-75) with the default
queue: run the single-target search, then reconstruct the path (empty path
and distance `-1` when the target is unreached). -/
def ShortestPathWithQueue (g : Graph) (v w : Nat) : List Nat × Int :=
  let pd := shortestPathWithQueue g v w
  let d := lget pd.2 w
  if d = -1 then ([], -1)
  else ((buildPath pd.1 (g.Order + 1) ((w : Int)) []).reverse, d)

/-- `ShortestPath(g, v, w)` (src/path.go:9-12): `ShortestPathWithQueue` with
the default `dijkstraQueue`. -/
def ShortestPath (g : Graph) (v w : Nat) : List Nat × Int :=
  ShortestPathWithQueue g v w

/-- `k`-fold following of `parent` links, absorbing at the sentinel `-1`. -/
def parentIter (parent : List Int) : Nat → Int → Int
  | 0, x => x
  | k + 1, x => if x = -1 then -1 else parentIter parent k (lget parent x.toNat)

/-! ### Properties of the queue model -/

theorem popMin_eq_none {dist : List Int} :
    ∀ {q : List Nat}, popMin dist q = none → q = [] := by
  intro q h
  cases q with
  | nil => rfl
  | cons v rest =>
    rw [popMin] at h
    rcases hr : popMin dist rest with _ | ⟨u, rest'⟩ <;> simp only [hr] at h
    · cases h
    · split at h <;> cases h

theorem popMin_spec {dist : List Int} :
    ∀ {q : List Nat} {v : Nat} {rest : List Nat}, popMin dist q = some (v, rest) →
      q.Perm (v :: rest) ∧ ∀ x ∈ q, lget dist v ≤ lget dist x := by
  intro q
  induction q with
  | nil => intro v rest h; cases h
  | cons a q' ih =>
    intro v rest h
    rw [popMin] at h
    rcases hr : popMin dist q' with _ | ⟨u, rest'⟩ <;> simp only [hr] at h
    · have hq' : q' = [] := popMin_eq_none hr
      subst hq'
      injection h with h'
      injection h' with h1 h2
      subst h1; subst h2
      exact ⟨List.Perm.refl _, by intro x hx; rw [List.mem_singleton.mp hx]⟩
    · obtain ⟨hperm, hmin⟩ := ih hr
      split at h
      · rename_i hle
        injection h with h'
        injection h' with h1 h2
        subst h1; subst h2
        refine ⟨List.Perm.refl _, ?_⟩
        intro x hx
        rcases List.mem_cons.mp hx with rfl | hx'
        · exact le_refl _
        · exact le_trans hle (hmin x hx')
      · rename_i hle
        injection h with h'
        injection h' with h1 h2
        subst h1; subst h2
        refine ⟨?_, ?_⟩
        · exact (List.Perm.cons a hperm).trans (List.Perm.swap u a rest')
        · intro x hx
          rcases List.mem_cons.mp hx with rfl | hx'
          · exact le_of_lt (lt_of_not_le hle)
          · exact hmin x hx'

theorem popMin_mem {dist : List Int} {q : List Nat} {v : Nat} {rest : List Nat}
    (h : popMin dist q = some (v, rest)) : v ∈ q :=
  (popMin_spec h).1.mem_iff.mpr (List.mem_cons_self ..)

/-! ### The run invariant -/

/-- The part of the loop invariant common to all phases.  `P` is the list of
already-popped (finalized) vertices, in pop order; `src` the source. -/
structure Base (g : Graph) (src : Nat) (P : List Nat) (s : PFState) : Prop where
  hwf : g.WF
  hsrc : src < g.Order
  distLen : s.dist.length = g.Order
  parLen : s.parent.length = g.Order
  nodup : (P ++ s.queue).Nodup
  memLt : ∀ w ∈ P ++ s.queue, w < g.Order
  distMem : ∀ w : Nat, lget s.dist w ≠ -1 → w ∈ P ∨ w ∈ s.queue
  distNonneg : ∀ w ∈ P ++ s.queue, 0 ≤ lget s.dist w
  srcZero : lget s.dist src = 0
  srcMem : src ∈ P ++ s.queue
  srcPar : lget s.parent src = -1
  reach : ∀ w : Nat, lget s.dist w ≠ -1 → PathW g src w (lget s.dist w)
  parentOk : ∀ w : Nat, w ≠ src → lget s.dist w ≠ -1 →
    ∃ (u : Nat) (c : Int), lget s.parent w = (u : Int) ∧ u ∈ P ∧ 0 ≤ c ∧ (w, c) ∈ g.adjList u ∧
      lget s.dist w = lget s.dist u + c ∧ (w ∈ P → P.indexOf u < P.indexOf w)
  optP : ∀ u ∈ P, ∀ d, PathW g src u d → lget s.dist u ≤ d
  frontier : ∀ u ∈ P, ∀ w ∈ s.queue, lget s.dist u ≤ lget s.dist w
  sortedP : P.Pairwise (fun a b => lget s.dist a ≤ lget s.dist b)

/-- The full invariant: additionally, every non-negative edge out of a
finalized vertex has been relaxed. -/
structure Inv (g : Graph) (src : Nat) (P : List Nat) (s : PFState)
    extends Base g src P s : Prop where
  relaxed : ∀ u ∈ P, ∀ w c, (w, c) ∈ g.adjList u → 0 ≤ c →
    lget s.dist w ≠ -1 ∧ lget s.dist w ≤ lget s.dist u + c

/-- The invariant holding midway through `g.Visit(v, do)`: `v` was just
popped (so `P = P0 ++ [v]`), the edges in `pend` are still to be processed,
all other non-negative edges of `v` are already relaxed. -/
structure MidInv (g : Graph) (src v : Nat) (P0 : List Nat)
    (pend : List (Nat × Int)) (s : PFState)
    extends Base g src (P0 ++ [v]) s : Prop where
  relaxedOld : ∀ u ∈ P0, ∀ w c, (w, c) ∈ g.adjList u → 0 ≤ c →
    lget s.dist w ≠ -1 ∧ lget s.dist w ≤ lget s.dist u + c
  relaxedV : ∀ w c, (w, c) ∈ g.adjList v → 0 ≤ c →
    (w, c) ∈ pend ∨ (lget s.dist w ≠ -1 ∧ lget s.dist w ≤ lget s.dist v + c)
  pendSub : ∀ e ∈ pend, e ∈ g.adjList v

theorem Base.disjointPQ {g src P s} (B : Base g src P s) :
    ∀ {x : Nat}, x ∈ P → x ∈ s.queue → False := by
  intro x hP hq
  exact (List.nodup_append.mp B.nodup).2.2 hP hq

theorem Base.dist_ne_neg_one {g src P s} (B : Base g src P s) {w : Nat}
    (h : w ∈ P ++ s.queue) : lget s.dist w ≠ -1 := by
  have := B.distNonneg w h
  omega

theorem sorted_le_last {dist : List Int} {P0 : List Nat} {v : Nat}
    (h : (P0 ++ [v]).Pairwise (fun a b => lget dist a ≤ lget dist b)) :
    ∀ u ∈ P0 ++ [v], lget dist u ≤ lget dist v := by
  intro u hu
  rcases List.mem_append.mp hu with h0 | h1
  · exact (List.pairwise_append.mp h).2.2 u h0 v (List.mem_singleton.mpr rfl)
  · rw [List.mem_singleton.mp h1]

/-- Optimality of the popped vertex: when `v` is about to be popped, no path
of non-negative edges from the source to `v` is shorter than `dist[v]`. -/
theorem pop_opt {g : Graph} {src : Nat} {P : List Nat} {s : PFState}
    {v : Nat} {rest : List Nat} (I : Inv g src P s)
    (h : popMin s.dist s.queue = some (v, rest)) :
    ∀ d, PathW g src v d → lget s.dist v ≤ d := by
  obtain ⟨hperm, hmin⟩ := popMin_spec h
  have hvq : v ∈ s.queue := hperm.mem_iff.mpr (List.mem_cons_self ..)
  have key : ∀ w d, PathW g src w d →
      (w ∈ P ∧ lget s.dist w ≤ d) ∨ lget s.dist v ≤ d := by
    intro w d hp
    induction hp with
    | nil =>
      rcases List.mem_append.mp I.srcMem with hP | hq
      · exact Or.inl ⟨hP, le_of_eq I.srcZero⟩
      · exact Or.inr (by rw [← I.srcZero]; exact hmin src hq)
    | @cons u w' c d' hp' hmem hc ih =>
      rcases ih with ⟨hP, hle⟩ | hle
      · obtain ⟨hne, hrel⟩ := I.relaxed u hP w' c hmem hc
        rcases I.distMem w' hne with hwP | hwq
        · exact Or.inl ⟨hwP, hrel.trans (by omega)⟩
        · exact Or.inr ((hmin w' hwq).trans (hrel.trans (by omega)))
      · exact Or.inr (hle.trans (by omega))
  intro d hp
  rcases key v d hp with ⟨hP, _⟩ | hle
  · exact absurd hvq (fun hq => I.disjointPQ hP hq)
  · exact hle

/-- With an empty queue, every vertex reachable over non-negative edges has
been assigned a distance. -/
theorem complete_of_empty {g : Graph} {src : Nat} {P : List Nat} {s : PFState}
    (I : Inv g src P s) (hq : s.queue = []) :
    ∀ (w : Nat) (d : Int), PathW g src w d → lget s.dist w ≠ -1 := by
  intro w d hp
  induction hp with
  | nil => rw [I.srcZero]; decide
  | @cons u w' c d' hp' hmem hc ih =>
    have hu : u ∈ P := by
      rcases I.distMem _ ih with h' | h'
      · exact h'
      · rw [hq] at h'; cases h'
    exact (I.relaxed u hu _ _ hmem hc).1

/-! ### Reduction equations for the relaxation callback -/

theorem pfDo_neg {v : Nat} {s : PFState} {w : Nat} {d : Int} (h : d < 0) :
    pfDo v s w d = s := by
  simp [pfDo, if_pos h]

theorem pfDo_discover {v : Nat} {s : PFState} {w : Nat} {d : Int}
    (h1 : ¬d < 0) (h2 : lget s.dist w = -1) :
    pfDo v s w d =
      ⟨lset s.dist w (lget s.dist v + d), lset s.parent w (v : Int), s.queue ++ [w]⟩ := by
  simp [pfDo, h1, h2]

theorem pfDo_improve {v : Nat} {s : PFState} {w : Nat} {d : Int}
    (h1 : ¬d < 0) (h2 : ¬lget s.dist w = -1) (h3 : lget s.dist v + d < lget s.dist w) :
    pfDo v s w d =
      ⟨lset s.dist w (lget s.dist v + d), lset s.parent w (v : Int), s.queue⟩ := by
  simp [pfDo, h1, h2, h3]

theorem pfDo_keep {v : Nat} {s : PFState} {w : Nat} {d : Int}
    (h1 : ¬d < 0) (h2 : ¬lget s.dist w = -1) (h3 : ¬lget s.dist v + d < lget s.dist w) :
    pfDo v s w d = s := by
  simp [pfDo, h1, h2, h3]

theorem pairwise_dist_congr {d1 d2 : List Int} {L : List Nat}
    (h : ∀ x ∈ L, lget d1 x = lget d2 x)
    (hp : L.Pairwise (fun a b => lget d1 a ≤ lget d1 b)) :
    L.Pairwise (fun a b => lget d2 a ≤ lget d2 b) :=
  hp.imp_of_mem (fun ha hb hr => by rw [← h _ ha, ← h _ hb]; exact hr)

/-- One step of `g.Visit(v, do)` preserves the mid-visit invariant, and the
distances of finalized vertices are untouched. -/
theorem pfDo_step {g : Graph} {src v : Nat} {P0 : List Nat}
    {e : Nat × Int} {pend : List (Nat × Int)} {s : PFState}
    (M : MidInv g src v P0 (e :: pend) s) :
    MidInv g src v P0 pend (pfDo v s e.1 e.2) ∧
      ∀ x ∈ P0 ++ [v], lget (pfDo v s e.1 e.2).dist x = lget s.dist x := by
  have B := M.toBase
  have he_adj : e ∈ g.adjList v := M.pendSub e (List.mem_cons_self ..)
  have hw0lt : e.1 < g.Order := Graph.wf_target B.hwf he_adj
  by_cases hc : e.2 < 0
  · rw [pfDo_neg hc]
    refine ⟨⟨B, M.relaxedOld, ?_, ?_⟩, fun x _ => rfl⟩
    · intro w c hm hcn
      rcases M.relaxedV w c hm hcn with hmem | hdone
      · rcases List.mem_cons.mp hmem with heq | h'
        · exfalso
          have hce : c = e.2 := congrArg Prod.snd heq
          omega
        · exact Or.inl h'
      · exact Or.inr hdone
    · exact fun e' he' => M.pendSub e' (List.mem_cons_of_mem _ he')
  · have hc' : 0 ≤ e.2 := by omega
    have hvP : v ∈ P0 ++ [v] := List.mem_append_right _ (List.mem_singleton.mpr rfl)
    have hDv0 : 0 ≤ lget s.dist v := B.distNonneg v (List.mem_append_left _ hvP)
    have hDvne : lget s.dist v ≠ -1 := by omega
    have halt0 : 0 ≤ lget s.dist v + e.2 := by omega
    have hw0dist : e.1 < s.dist.length := by rw [B.distLen]; exact hw0lt
    have hw0par : e.1 < s.parent.length := by rw [B.parLen]; exact hw0lt
    have hD'w : lget (lset s.dist e.1 (lget s.dist v + e.2)) e.1 = lget s.dist v + e.2 :=
      lget_lset_eq _ _ _ hw0dist
    have hD' : ∀ x : Nat, x ≠ e.1 →
        lget (lset s.dist e.1 (lget s.dist v + e.2)) x = lget s.dist x :=
      fun x hx => lget_lset_ne _ _ _ _ (fun h => hx h.symm)
    have hP' : ∀ x : Nat, x ≠ e.1 →
        lget (lset s.parent e.1 (v : Int)) x = lget s.parent x :=
      fun x hx => lget_lset_ne _ _ _ _ (fun h => hx h.symm)
    have hP'w : lget (lset s.parent e.1 (v : Int)) e.1 = (v : Int) :=
      lget_lset_eq _ _ _ hw0par
    have hmemE : ((e.1 : Nat), (e.2 : Int)) ∈ g.adjList v := by
      rw [Prod.mk.eta]; exact he_adj
    by_cases hw : lget s.dist e.1 = -1
    · -- first discovery: parent[w] = v, Push(w, alt)
      rw [pfDo_discover hc hw]
      have hfresh : e.1 ∉ (P0 ++ [v]) ++ s.queue := by
        intro hmem
        have := B.distNonneg _ hmem
        omega
      have hfreshP : e.1 ∉ P0 ++ [v] := fun h => hfresh (List.mem_append_left _ h)
      have hfreshQ : e.1 ∉ s.queue := fun h => hfresh (List.mem_append_right _ h)
      have hvne : v ≠ e.1 := fun h => hfreshP (h ▸ hvP)
      have hsrcne : src ≠ e.1 := by
        intro h
        rw [← h, B.srcZero] at hw
        exact absurd hw (by decide)
      have hmem_back : ∀ x : Nat, x ∈ (P0 ++ [v]) ++ (s.queue ++ [e.1]) → x ≠ e.1 →
          x ∈ (P0 ++ [v]) ++ s.queue := by
        intro x hx hne
        rcases List.mem_append.mp hx with h1 | h2
        · exact List.mem_append_left _ h1
        rcases List.mem_append.mp h2 with h3 | h4
        · exact List.mem_append_right _ h3
        · exact absurd (List.mem_singleton.mp h4) hne
      have BB : Base g src (P0 ++ [v])
          ⟨lset s.dist e.1 (lget s.dist v + e.2), lset s.parent e.1 (v : Int),
            s.queue ++ [e.1]⟩ := by
        refine { hwf := B.hwf, hsrc := B.hsrc, distLen := ?_, parLen := ?_, nodup := ?_,
                 memLt := ?_, distMem := ?_, distNonneg := ?_, srcZero := ?_, srcMem := ?_,
                 srcPar := ?_, reach := ?_, parentOk := ?_, optP := ?_, frontier := ?_,
                 sortedP := ?_ }
        · rw [length_lset, B.distLen]
        · rw [length_lset, B.parLen]
        · rw [← List.append_assoc]
          refine List.nodup_append.mpr ⟨B.nodup, List.nodup_singleton _, ?_⟩
          intro a ha hb
          rw [List.mem_singleton.mp hb] at ha
          exact hfresh ha
        · intro x hx
          by_cases hxe : x = e.1
          · rw [hxe]; exact hw0lt
          · exact B.memLt x (hmem_back x hx hxe)
        · intro x hx
          by_cases hxe : x = e.1
          · subst hxe
            exact Or.inr (List.mem_append_right _ (List.mem_singleton.mpr rfl))
          · rw [hD' x hxe] at hx
            rcases B.distMem x hx with h1 | h2
            · exact Or.inl h1
            · exact Or.inr (List.mem_append_left _ h2)
        · intro x hx
          by_cases hxe : x = e.1
          · rw [hxe, hD'w]; omega
          · rw [hD' x hxe]
            exact B.distNonneg x (hmem_back x hx hxe)
        · rw [hD' src hsrcne]; exact B.srcZero
        · rcases List.mem_append.mp B.srcMem with h1 | h2
          · exact List.mem_append_left _ h1
          · exact List.mem_append_right _ (List.mem_append_left _ h2)
        · rw [hP' src hsrcne]; exact B.srcPar
        · intro x hx
          by_cases hxe : x = e.1
          · subst hxe
            rw [hD'w]
            exact PathW.cons (B.reach v hDvne) hmemE hc'
          · rw [hD' x hxe] at hx ⊢
            exact B.reach x hx
        · intro x hxsrc hx
          by_cases hxe : x = e.1
          · subst hxe
            refine ⟨v, e.2, hP'w, hvP, hc', hmemE, ?_, ?_⟩
            · rw [hD'w, hD' v hvne]
            · intro hcon; exact absurd hcon hfreshP
          · rw [hD' x hxe] at hx
            obtain ⟨u, cc, h1, h2, h3, h4, h5, h6⟩ := B.parentOk x hxsrc hx
            have hune : u ≠ e.1 := fun h => hfreshP (h ▸ h2)
            refine ⟨u, cc, ?_, h2, h3, h4, ?_, h6⟩
            · rw [hP' x hxe]; exact h1
            · rw [hD' x hxe, hD' u hune]; exact h5
        · intro u hu d hp
          rw [hD' u (fun h => hfreshP (h ▸ hu))]
          exact B.optP u hu d hp
        · intro u hu x hx
          have hune : u ≠ e.1 := fun h => hfreshP (h ▸ hu)
          rw [hD' u hune]
          rcases List.mem_append.mp hx with h3 | h4
          · rw [hD' x (fun h => hfreshQ (h ▸ h3))]
            exact B.frontier u hu x h3
          · rw [List.mem_singleton.mp h4, hD'w]
            have := sorted_le_last B.sortedP u hu
            omega
        · exact pairwise_dist_congr
            (fun x hx => (hD' x (fun h => hfreshP (h ▸ hx))).symm) B.sortedP
      refine ⟨⟨BB, ?_, ?_, ?_⟩, ?_⟩
      · intro u hu w c hm hcn
        have huP' : u ∈ P0 ++ [v] := List.mem_append_left _ hu
        have hune : u ≠ e.1 := fun h => hfreshP (h ▸ huP')
        obtain ⟨h1, h2⟩ := M.relaxedOld u hu w c hm hcn
        by_cases hwe : w = e.1
        · rw [hwe] at h1; exact absurd hw h1
        · exact ⟨by rw [hD' w hwe]; exact h1, by rw [hD' w hwe, hD' u hune]; exact h2⟩
      · intro w c hm hcn
        rcases M.relaxedV w c hm hcn with hmem | ⟨h1, h2⟩
        · rcases List.mem_cons.mp hmem with heq | h'
          · right
            have hwe : w = e.1 := congrArg Prod.fst heq
            have hce : c = e.2 := congrArg Prod.snd heq
            subst hwe; subst hce
            refine ⟨by rw [hD'w]; omega, ?_⟩
            rw [hD'w, hD' v hvne]
          · exact Or.inl h'
        · right
          by_cases hwe : w = e.1
          · rw [hwe] at h1; exact absurd hw h1
          · exact ⟨by rw [hD' w hwe]; exact h1, by rw [hD' w hwe, hD' v hvne]; exact h2⟩
      · exact fun e' he' => M.pendSub e' (List.mem_cons_of_mem _ he')
      · intro x hx
        exact hD' x (fun h => hfreshP (h ▸ hx))
    · -- the target already has a distance
      by_cases halt : lget s.dist v + e.2 < lget s.dist e.1
      · -- strict improvement: parent[w] = v, Fix(w, alt)
        rw [pfDo_improve hc hw halt]
        have hfreshP : e.1 ∉ P0 ++ [v] := by
          intro hmem
          have h1 : lget s.dist e.1 ≤ lget s.dist v := sorted_le_last B.sortedP _ hmem
          omega
        have he1q : e.1 ∈ s.queue := by
          rcases B.distMem e.1 hw with h1 | h2
          · exact absurd h1 hfreshP
          · exact h2
        have hvne : v ≠ e.1 := fun h => hfreshP (h ▸ hvP)
        have hsrcne : src ≠ e.1 := by
          intro h
          rw [← h, B.srcZero] at halt
          omega
        have BB : Base g src (P0 ++ [v])
            ⟨lset s.dist e.1 (lget s.dist v + e.2), lset s.parent e.1 (v : Int),
              s.queue⟩ := by
          refine { hwf := B.hwf, hsrc := B.hsrc, distLen := ?_, parLen := ?_, nodup := ?_,
                   memLt := ?_, distMem := ?_, distNonneg := ?_, srcZero := ?_, srcMem := ?_,
                   srcPar := ?_, reach := ?_, parentOk := ?_, optP := ?_, frontier := ?_,
                   sortedP := ?_ }
          · rw [length_lset, B.distLen]
          · rw [length_lset, B.parLen]
          · exact B.nodup
          · exact B.memLt
          · intro x hx
            by_cases hxe : x = e.1
            · subst hxe; exact Or.inr he1q
            · rw [hD' x hxe] at hx
              exact B.distMem x hx
          · intro x hx
            by_cases hxe : x = e.1
            · rw [hxe, hD'w]; omega
            · rw [hD' x hxe]
              exact B.distNonneg x hx
          · rw [hD' src hsrcne]; exact B.srcZero
          · exact B.srcMem
          · rw [hP' src hsrcne]; exact B.srcPar
          · intro x hx
            by_cases hxe : x = e.1
            · subst hxe
              rw [hD'w]
              exact PathW.cons (B.reach v hDvne) hmemE hc'
            · rw [hD' x hxe] at hx ⊢
              exact B.reach x hx
          · intro x hxsrc hx
            by_cases hxe : x = e.1
            · subst hxe
              refine ⟨v, e.2, hP'w, hvP, hc', hmemE, ?_, ?_⟩
              · rw [hD'w, hD' v hvne]
              · intro hcon; exact absurd hcon hfreshP
            · rw [hD' x hxe] at hx
              obtain ⟨u, cc, h1, h2, h3, h4, h5, h6⟩ := B.parentOk x hxsrc hx
              have hune : u ≠ e.1 := fun h => hfreshP (h ▸ h2)
              refine ⟨u, cc, ?_, h2, h3, h4, ?_, h6⟩
              · rw [hP' x hxe]; exact h1
              · rw [hD' x hxe, hD' u hune]; exact h5
          · intro u hu d hp
            rw [hD' u (fun h => hfreshP (h ▸ hu))]
            exact B.optP u hu d hp
          · intro u hu x hx
            have hune : u ≠ e.1 := fun h => hfreshP (h ▸ hu)
            rw [hD' u hune]
            by_cases hxe : x = e.1
            · rw [hxe, hD'w]
              have := sorted_le_last B.sortedP u hu
              omega
            · rw [hD' x hxe]
              exact B.frontier u hu x hx
          · exact pairwise_dist_congr
              (fun x hx => (hD' x (fun h => hfreshP (h ▸ hx))).symm) B.sortedP
        refine ⟨⟨BB, ?_, ?_, ?_⟩, ?_⟩
        · intro u hu w c hm hcn
          have huP' : u ∈ P0 ++ [v] := List.mem_append_left _ hu
          have hune : u ≠ e.1 := fun h => hfreshP (h ▸ huP')
          obtain ⟨h1, h2⟩ := M.relaxedOld u hu w c hm hcn
          by_cases hwe : w = e.1
          · subst hwe
            refine ⟨by rw [hD'w]; omega, ?_⟩
            rw [hD'w, hD' u hune]
            omega
          · exact ⟨by rw [hD' w hwe]; exact h1, by rw [hD' w hwe, hD' u hune]; exact h2⟩
        · intro w c hm hcn
          rcases M.relaxedV w c hm hcn with hmem | ⟨h1, h2⟩
          · rcases List.mem_cons.mp hmem with heq | h'
            · right
              have hwe : w = e.1 := congrArg Prod.fst heq
              have hce : c = e.2 := congrArg Prod.snd heq
              subst hwe; subst hce
              refine ⟨by rw [hD'w]; omega, ?_⟩
              rw [hD'w, hD' v hvne]
            · exact Or.inl h'
          · right
            by_cases hwe : w = e.1
            · subst hwe
              refine ⟨by rw [hD'w]; omega, ?_⟩
              rw [hD'w, hD' v hvne]
              omega
            · exact ⟨by rw [hD' w hwe]; exact h1, by rw [hD' w hwe, hD' v hvne]; exact h2⟩
        · exact fun e' he' => M.pendSub e' (List.mem_cons_of_mem _ he')
        · intro x hx
          exact hD' x (fun h => hfreshP (h ▸ hx))
      · -- no improvement: state unchanged
        rw [pfDo_keep hc hw halt]
        refine ⟨⟨B, M.relaxedOld, ?_, ?_⟩, fun x _ => rfl⟩
        · intro w c hm hcn
          rcases M.relaxedV w c hm hcn with hmem | hdone
          · rcases List.mem_cons.mp hmem with heq | h'
            · right
              have hwe : w = e.1 := congrArg Prod.fst heq
              have hce : c = e.2 := congrArg Prod.snd heq
              subst hwe; subst hce
              exact ⟨hw, by omega⟩
            · exact Or.inl h'
          · exact Or.inr hdone
        · exact fun e' he' => M.pendSub e' (List.mem_cons_of_mem _ he')

/-- Folding the callback over the pending edges discharges them all. -/
theorem visit_fold {g : Graph} {src v : Nat} {P0 : List Nat} :
    ∀ (pend : List (Nat × Int)) (s : PFState), MidInv g src v P0 pend s →
      MidInv g src v P0 [] (pend.foldl (fun s e => pfDo v s e.1 e.2) s) ∧
        ∀ x ∈ P0 ++ [v],
          lget (pend.foldl (fun s e => pfDo v s e.1 e.2) s).dist x = lget s.dist x
  | [], _, M => ⟨M, fun _ _ => rfl⟩
  | e :: pend, s, M => by
    obtain ⟨M', hpres⟩ := pfDo_step M
    obtain ⟨Mf, hpres'⟩ := visit_fold pend (pfDo v s e.1 e.2) M'
    exact ⟨Mf, fun x hx => (hpres' x hx).trans (hpres x hx)⟩

theorem indexOf_append_last {P0 : List Nat} {v : Nat} (h : v ∉ P0) :
    (P0 ++ [v]).indexOf v = P0.length := by
  rw [List.indexOf_append_of_not_mem h, List.indexOf_cons_self]
  omega

/-- Popping the minimal vertex `v` of the queue turns the invariant into the
mid-visit invariant with all edges of `v` pending. -/
theorem pop_mid {g : Graph} {src : Nat} {P0 : List Nat} {s : PFState}
    {v : Nat} {rest : List Nat} (I : Inv g src P0 s)
    (h : popMin s.dist s.queue = some (v, rest)) :
    MidInv g src v P0 (g.adjList v) ⟨s.dist, s.parent, rest⟩ := by
  obtain ⟨hperm, hmin⟩ := popMin_spec h
  have hvq : v ∈ s.queue := hperm.mem_iff.mpr (List.mem_cons_self ..)
  have B := I.toBase
  have hvP0 : v ∉ P0 := fun hP => B.disjointPQ hP hvq
  have hperm2 : ((P0 ++ [v]) ++ rest).Perm (P0 ++ s.queue) := by
    rw [List.append_assoc]
    exact List.Perm.append_left P0 hperm.symm
  have hoptv := pop_opt I h
  refine ⟨{ hwf := B.hwf, hsrc := B.hsrc, distLen := B.distLen, parLen := B.parLen,
            nodup := ?_, memLt := ?_, distMem := ?_, distNonneg := ?_, srcZero := B.srcZero,
            srcMem := ?_, srcPar := B.srcPar, reach := B.reach, parentOk := ?_,
            optP := ?_, frontier := ?_, sortedP := ?_ },
          ?_, ?_, ?_⟩
  · exact (hperm2.nodup_iff).mpr B.nodup
  · exact fun x hx => B.memLt x (hperm2.mem_iff.mp hx)
  · intro x hx
    rcases B.distMem x hx with h1 | h2
    · exact Or.inl (List.mem_append_left _ h1)
    · rcases List.mem_cons.mp (hperm.mem_iff.mp h2) with rfl | h3
      · exact Or.inl (List.mem_append_right _ (List.mem_singleton.mpr rfl))
      · exact Or.inr h3
  · exact fun x hx => B.distNonneg x (hperm2.mem_iff.mp hx)
  · exact hperm2.mem_iff.mpr B.srcMem
  · intro x hxsrc hx
    obtain ⟨u, cc, h1, h2, h3, h4, h5, h6⟩ := B.parentOk x hxsrc hx
    refine ⟨u, cc, h1, List.mem_append_left _ h2, h3, h4, h5, ?_⟩
    intro hxP'
    rcases List.mem_append.mp hxP' with hxP | hxv
    · rw [List.indexOf_append_of_mem h2, List.indexOf_append_of_mem hxP]
      exact h6 hxP
    · rw [List.mem_singleton.mp hxv]
      rw [List.indexOf_append_of_mem h2, indexOf_append_last hvP0]
      exact List.indexOf_lt_length.mpr h2
  · intro u hu d hp
    rcases List.mem_append.mp hu with h1 | h2
    · exact B.optP u h1 d hp
    · have h2' := List.mem_singleton.mp h2
      subst h2'
      exact hoptv d hp
  · intro u hu x hx
    have hxq : x ∈ s.queue := hperm.mem_iff.mpr (List.mem_cons_of_mem v hx)
    rcases List.mem_append.mp hu with h1 | h2
    · exact B.frontier u h1 x hxq
    · rw [List.mem_singleton.mp h2]
      exact hmin x hxq
  · refine List.pairwise_append.mpr ⟨B.sortedP, List.pairwise_singleton .., ?_⟩
    intro a ha b hb
    rw [List.mem_singleton.mp hb]
    exact B.frontier a ha v hvq
  · exact fun u hu w c hm hcn => I.relaxed u hu w c hm hcn
  · exact fun w c hm _ => Or.inl hm
  · exact fun e he => he

/-- A full pop-and-visit step preserves the invariant and leaves finalized
distances unchanged. -/
theorem step_inv {g : Graph} {src : Nat} {P0 : List Nat} {s : PFState}
    {v : Nat} {rest : List Nat} (I : Inv g src P0 s)
    (h : popMin s.dist s.queue = some (v, rest)) :
    Inv g src (P0 ++ [v]) (visit g v ⟨s.dist, s.parent, rest⟩) ∧
      ∀ x ∈ P0 ++ [v], lget (visit g v ⟨s.dist, s.parent, rest⟩).dist x = lget s.dist x := by
  obtain ⟨Mf, hpres⟩ := visit_fold (g.adjList v) _ (pop_mid I h)
  refine ⟨⟨Mf.toBase, ?_⟩, hpres⟩
  intro u hu w c hm hcn
  rcases List.mem_append.mp hu with h1 | h2
  · exact Mf.relaxedOld u h1 w c hm hcn
  · have hu2 := List.mem_singleton.mp h2
    subst hu2
    rcases Mf.relaxedV w c hm hcn with hmem | hdone
    · cases hmem
    · exact hdone

/-! ### The main loop -/

theorem loop_inv {g : Graph} {src : Nat} :
    ∀ (fuel : Nat) (P : List Nat) (s : PFState), Inv g src P s →
      Inv g src (P ++ (dijkstraLoop g fuel s).2) (dijkstraLoop g fuel s).1 ∧
        ∀ x ∈ P, lget (dijkstraLoop g fuel s).1.dist x = lget s.dist x
  | 0, P, s, I => by
    have hval : dijkstraLoop g 0 s = (s, []) := rfl
    rw [hval]
    exact ⟨by simpa using I, fun _ _ => rfl⟩
  | fuel + 1, P, s, I => by
    rcases hp : popMin s.dist s.queue with _ | ⟨v, rest⟩
    · have hval : dijkstraLoop g (fuel + 1) s = (s, []) := by
        simp only [dijkstraLoop, hp]
      rw [hval]
      exact ⟨by simpa using I, fun _ _ => rfl⟩
    · simp only [dijkstraLoop, hp]
      obtain ⟨I', hpres⟩ := step_inv I hp
      obtain ⟨If, hpres'⟩ := loop_inv fuel (P ++ [v]) _ I'
      constructor
      · have heq : (P ++ [v]) ++ (dijkstraLoop g fuel
            (visit g v ⟨s.dist, s.parent, rest⟩)).2 =
            P ++ v :: (dijkstraLoop g fuel (visit g v ⟨s.dist, s.parent, rest⟩)).2 := by
          rw [List.append_assoc]; rfl
        rw [← heq]
        exact If
      · intro x hx
        exact (hpres' x (List.mem_append_left _ hx)).trans
          (hpres x (List.mem_append_left _ hx))

theorem inv_queue_empty_of_full {g : Graph} {src : Nat} {P : List Nat}
    {s : PFState} (I : Inv g src P s) (hlen : g.Order ≤ P.length) :
    s.queue = [] := by
  have hnodupP : P.Nodup := (List.nodup_append.mp I.nodup).1
  have hsubP : P ⊆ List.range g.Order := fun x hx =>
    List.mem_range.mpr (I.memLt x (List.mem_append_left _ hx))
  have hperm : P.Perm (List.range g.Order) :=
    (hnodupP.subperm hsubP).perm_of_length_le (by rw [List.length_range]; exact hlen)
  cases hq : s.queue with
  | nil => rfl
  | cons a q' =>
    exfalso
    have haq : a ∈ s.queue := by rw [hq]; exact List.mem_cons_self ..
    have halt : a < g.Order := I.memLt a (List.mem_append_right _ haq)
    have haP : a ∈ P := hperm.mem_iff.mpr (List.mem_range.mpr halt)
    exact I.disjointPQ haP haq

theorem loop_empty {g : Graph} {src : Nat} :
    ∀ (fuel : Nat) (P : List Nat) (s : PFState), Inv g src P s →
      g.Order - P.length ≤ fuel → (dijkstraLoop g fuel s).1.queue = []
  | 0, P, s, I, hf => inv_queue_empty_of_full I (by omega)
  | fuel + 1, P, s, I, hf => by
    rcases hp : popMin s.dist s.queue with _ | ⟨v, rest⟩
    · simp only [dijkstraLoop, hp]
      exact popMin_eq_none hp
    · simp only [dijkstraLoop, hp]
      obtain ⟨I', _⟩ := step_inv I hp
      exact loop_empty fuel (P ++ [v]) _ I'
        (by rw [List.length_append, List.length_singleton]; omega)

theorem loop_add {g : Graph} :
    ∀ (a b : Nat) (s : PFState),
      dijkstraLoop g (a + b) s =
        ((dijkstraLoop g b (dijkstraLoop g a s).1).1,
          (dijkstraLoop g a s).2 ++ (dijkstraLoop g b (dijkstraLoop g a s).1).2)
  | 0, b, s => by
    rw [Nat.zero_add]
    simp [dijkstraLoop]
  | a + 1, b, s => by
    rcases hp : popMin s.dist s.queue with _ | ⟨v, rest⟩
    · have hstuck : ∀ f, dijkstraLoop g f s = (s, []) := by
        intro f
        cases f with
        | zero => rfl
        | succ f => simp only [dijkstraLoop, hp]
      have heq : (a + 1) + b = (a + b) + 1 := by omega
      rw [heq, hstuck, hstuck, hstuck]
      simp
    · have heq : (a + 1) + b = (a + b) + 1 := by omega
      rw [heq]
      simp only [dijkstraLoop, hp]
      rw [loop_add a b (visit g v ⟨s.dist, s.parent, rest⟩)]
      simp

/-- The invariant holds before the main loop. -/
theorem init_inv {g : Graph} {src : Nat} (hwf : g.WF) (hsrc : src < g.Order) :
    Inv g src [] (initState g.Order src) := by
  have hlen : (List.replicate g.Order (-1 : Int)).length = g.Order := List.length_replicate ..
  have hd_src : lget (lset (List.replicate g.Order (-1)) src 0) src = 0 :=
    lget_lset_eq _ _ _ (by rw [hlen]; exact hsrc)
  have hd_ne : ∀ x : Nat, x ≠ src → lget (lset (List.replicate g.Order (-1)) src 0) x = -1 :=
    fun x hx => by
      rw [lget_lset_ne _ _ _ _ (fun h => hx h.symm), lget_replicate]
  show Inv g src []
    ⟨lset (List.replicate g.Order (-1)) src 0, List.replicate g.Order (-1), [src]⟩
  refine ⟨{ hwf := hwf, hsrc := hsrc, distLen := ?_, parLen := ?_, nodup := ?_, memLt := ?_,
            distMem := ?_, distNonneg := ?_, srcZero := hd_src, srcMem := ?_, srcPar := ?_,
            reach := ?_, parentOk := ?_, optP := ?_, frontier := ?_, sortedP := ?_ }, ?_⟩
  · rw [PFState.mk_dist, length_lset, hlen]
  · exact hlen
  · simp
  · intro x hx
    have hx' : x = src := by simpa using hx
    rw [hx']
    exact hsrc
  · intro x hx
    by_cases hxe : x = src
    · subst hxe
      exact Or.inr (List.mem_singleton.mpr rfl)
    · exact absurd (hd_ne x hxe) hx
  · intro x hx
    have hx' : x = src := by simpa using hx
    subst hx'
    simp only [PFState.mk_dist]
    omega
  · exact List.mem_append_right _ (List.mem_singleton.mpr rfl)
  · exact lget_replicate ..
  · intro x hx
    by_cases hxe : x = src
    · subst hxe
      simp only [PFState.mk_dist]
      rw [hd_src]
      exact PathW.nil
    · exact absurd (hd_ne x hxe) hx
  · intro x hxsrc hx
    exact absurd (hd_ne x hxsrc) hx
  · intro u hu
    cases hu
  · intro u hu
    cases hu
  · exact List.Pairwise.nil
  · intro u hu
    cases hu

/-! ### The single-target loop -/

/-- Running the single-target loop: either the target is never popped (the
loop drains the queue exactly like the all-targets loop), or it exits the
moment the target is popped, leaving dist/parent as at that pop. -/
theorem loopT_inv {g : Graph} {src t : Nat} :
    ∀ (fuel : Nat) (P : List Nat) (s : PFState), Inv g src P s → t ∉ P →
      (∀ x ∈ P, lget (dijkstraLoopT g t fuel s).1.dist x = lget s.dist x) ∧
        ((t ∉ (dijkstraLoopT g t fuel s).2 ∧
            Inv g src (P ++ (dijkstraLoopT g t fuel s).2) (dijkstraLoopT g t fuel s).1 ∧
            (g.Order - P.length ≤ fuel → (dijkstraLoopT g t fuel s).1.queue = [])) ∨
          (∃ p1 q, (dijkstraLoopT g t fuel s).2 = p1 ++ [t] ∧ t ∉ p1 ∧
            Inv g src (P ++ p1)
              ⟨(dijkstraLoopT g t fuel s).1.dist, (dijkstraLoopT g t fuel s).1.parent, q⟩ ∧
            popMin (dijkstraLoopT g t fuel s).1.dist q =
              some (t, (dijkstraLoopT g t fuel s).1.queue)))
  | 0, P, s, I, hnt => by
    have hval : dijkstraLoopT g t 0 s = (s, []) := rfl
    rw [hval]
    refine ⟨fun _ _ => rfl, Or.inl ⟨by simp, by simpa using I, ?_⟩⟩
    intro hf
    exact inv_queue_empty_of_full I (by omega)
  | fuel + 1, P, s, I, hnt => by
    rcases hp : popMin s.dist s.queue with _ | ⟨v, rest⟩
    · have hval : dijkstraLoopT g t (fuel + 1) s = (s, []) := by
        simp only [dijkstraLoopT, hp]
      rw [hval]
      exact ⟨fun _ _ => rfl,
        Or.inl ⟨by simp, by simpa using I, fun _ => popMin_eq_none hp⟩⟩
    · by_cases hvt : v = t
      · subst hvt
        have hval : dijkstraLoopT g v (fuel + 1) s = (⟨s.dist, s.parent, rest⟩, [v]) := by
          simp [dijkstraLoopT, hp]
        rw [hval]
        refine ⟨fun _ _ => rfl, Or.inr ⟨[], s.queue, by simp, by simp, ?_, hp⟩⟩
        simpa using I
      · have hval : dijkstraLoopT g t (fuel + 1) s =
            ((dijkstraLoopT g t fuel (visit g v ⟨s.dist, s.parent, rest⟩)).1,
              v :: (dijkstraLoopT g t fuel (visit g v ⟨s.dist, s.parent, rest⟩)).2) := by
          simp only [dijkstraLoopT, hp, if_neg hvt]
        rw [hval]
        obtain ⟨I', hpres⟩ := step_inv I hp
        have hnt' : t ∉ P ++ [v] := by
          intro hmem
          rcases List.mem_append.mp hmem with h1 | h2
          · exact hnt h1
          · exact hvt (List.mem_singleton.mp h2).symm
        obtain ⟨hpres', hrec⟩ := loopT_inv fuel (P ++ [v]) _ I' hnt'
        refine ⟨?_, ?_⟩
        · intro x hx
          exact (hpres' x (List.mem_append_left _ hx)).trans
            (hpres x (List.mem_append_left _ hx))
        · rcases hrec with ⟨hrt, hInv, hemp⟩ | ⟨p1, q, heq2, hnt1, hInv, hpop⟩
          · left
            refine ⟨?_, ?_, ?_⟩
            · intro hmem
              rcases List.mem_cons.mp hmem with h1 | h2
              · exact hvt h1.symm
              · exact hrt h2
            · have heq : (P ++ [v]) ++ (dijkstraLoopT g t fuel
                  (visit g v ⟨s.dist, s.parent, rest⟩)).2 =
                  P ++ v :: (dijkstraLoopT g t fuel (visit g v ⟨s.dist, s.parent, rest⟩)).2 := by
                rw [List.append_assoc]; rfl
              rw [← heq]
              exact hInv
            · intro hf
              exact hemp (by rw [List.length_append, List.length_singleton]; omega)
          · right
            refine ⟨v :: p1, q, by rw [heq2]; rfl, ?_, ?_, hpop⟩
            · intro hmem
              rcases List.mem_cons.mp hmem with h1 | h2
              · exact hvt h1.symm
              · exact hnt1 h2
            · have heq : (P ++ [v]) ++ p1 = P ++ v :: p1 := by
                rw [List.append_assoc]; rfl
              rw [← heq]
              exact hInv

/-! ### Path reconstruction -/

theorem buildPath_stop (p : List Int) : ∀ (f : Nat) (acc : List Nat),
    buildPath p f (-1) acc = acc
  | 0, _ => rfl
  | _ + 1, _ => by simp [buildPath]

theorem length_le_of_nodup_lt {L : List Nat} {n : Nat} (hnd : L.Nodup)
    (hlt : ∀ x ∈ L, x < n) : L.length ≤ n := by
  have h := (hnd.subperm (fun x hx => List.mem_range.mpr (hlt x hx))).length_le
  rwa [List.length_range] at h

theorem Chain.append_edge {g : Graph} {l : List Nat} {d : Int}
    (h : Chain g l d) :
    ∀ {u w : Nat} {c : Int}, l.getLast? = some u → (w, c) ∈ g.adjList u →
      Chain g (l ++ [w]) (d + c) := by
  induction h with
  | single v =>
    intro u w c hlast hmem
    have hvu : v = u := by simpa using hlast
    subst hvu
    have h0 : Chain g [v, w] (c + 0) := Chain.cons hmem (Chain.single w)
    have heq : (0 : Int) + c = c + 0 := by ring
    rw [heq]
    exact h0
  | @cons u0 w0 c0 d0 rest hmem0 hch ih =>
    intro u w c hlast hmem
    have hlast' : (w0 :: rest).getLast? = some u := by
      rw [← List.getLast?_cons_cons]
      exact hlast
    have h1 := ih hlast' hmem
    have h2 : Chain g (u0 :: ((w0 :: rest) ++ [w])) (c0 + (d0 + c)) := Chain.cons hmem0 h1
    have heq : c0 + d0 + c = c0 + (d0 + c) := by ring
    rw [heq]
    exact h2

theorem reconstruct_src {g : Graph} {src : Nat} {P : List Nat} {s : PFState}
    (I : Inv g src P s) :
    ∃ chain : List Nat, chain.head? = some src ∧ chain.getLast? = some src ∧
      chain.Nodup ∧
      (∀ x ∈ chain.tail, x ∈ P ∧ P.indexOf x + 1 ≤ 0) ∧
      Chain g chain.reverse (lget s.dist src) ∧
      (∀ fuel acc, chain.length ≤ fuel →
        buildPath s.parent fuel (src : Int) acc = acc ++ chain) ∧
      parentIter s.parent chain.length (src : Int) = -1 := by
  refine ⟨[src], rfl, rfl, List.nodup_singleton _, ?_, ?_, ?_, ?_⟩
  · intro x hx
    cases hx
  · show Chain g [src] (lget s.dist src)
    rw [I.srcZero]
    exact Chain.single src
  · intro fuel acc hlen
    cases fuel with
    | zero => exact absurd hlen (by simp)
    | succ f =>
      show buildPath s.parent (f + 1) (src : Int) acc = acc ++ [src]
      simp only [buildPath]
      rw [if_neg (by omega : ¬((src : Nat) : Int) = -1), Int.toNat_natCast, I.srcPar,
        buildPath_stop]
  · show parentIter s.parent (0 + 1) (src : Int) = -1
    simp only [parentIter]
    rw [if_neg (by omega : ¬((src : Nat) : Int) = -1), Int.toNat_natCast, I.srcPar]

theorem reconstruct_aux {g : Graph} {src : Nat} {P : List Nat} {s : PFState}
    (I : Inv g src P s) :
    ∀ (k : Nat) (w : Nat),
      (if w = src then 0 else P.indexOf ((lget s.parent w).toNat) + 1) ≤ k →
      lget s.dist w ≠ -1 →
      ∃ chain : List Nat,
        chain.head? = some w ∧ chain.getLast? = some src ∧ chain.Nodup ∧
        (∀ x ∈ chain.tail, x ∈ P ∧ P.indexOf x + 1 ≤
          (if w = src then 0 else P.indexOf ((lget s.parent w).toNat) + 1)) ∧
        Chain g chain.reverse (lget s.dist w) ∧
        (∀ fuel acc, chain.length ≤ fuel →
          buildPath s.parent fuel (w : Int) acc = acc ++ chain) ∧
        parentIter s.parent chain.length (w : Int) = -1 := by
  intro k
  induction k with
  | zero =>
    intro w hk hw
    by_cases hws : w = src
    · subst hws
      obtain ⟨chain, h1, h2, h3, h4, h5, h6, h7⟩ := reconstruct_src I
      refine ⟨chain, h1, h2, h3, ?_, h5, h6, h7⟩
      intro x hx
      obtain ⟨hxP, hxle⟩ := h4 x hx
      omega
    · rw [if_neg hws] at hk
      omega
  | succ k ih =>
    intro w hk hw
    by_cases hws : w = src
    · subst hws
      obtain ⟨chain, h1, h2, h3, h4, h5, h6, h7⟩ := reconstruct_src I
      refine ⟨chain, h1, h2, h3, ?_, h5, h6, h7⟩
      intro x hx
      obtain ⟨hxP, hxle⟩ := h4 x hx
      omega
    · rw [if_neg hws] at hk
      obtain ⟨u, c, h1u, h2u, h3u, h4u, h5u, h6u⟩ := I.parentOk w hws hw
      have htn : (lget s.parent w).toNat = u := by
        rw [h1u]; exact Int.toNat_natCast u
      rw [htn] at hk
      have hDu : lget s.dist u ≠ -1 := I.dist_ne_neg_one (List.mem_append_left _ h2u)
      have hmu : (if u = src then 0 else P.indexOf ((lget s.parent u).toNat) + 1) ≤ k := by
        by_cases hus : u = src
        · rw [if_pos hus]; omega
        · rw [if_neg hus]
          obtain ⟨u', c', h1', h2', h3', h4', h5', h6'⟩ := I.parentOk u hus hDu
          have htn' : (lget s.parent u).toNat = u' := by
            rw [h1']; exact Int.toNat_natCast u'
          rw [htn']
          have := h6' h2u
          omega
      obtain ⟨chain, hc1, hc2, hc3, hc4, hc5, hc6, hc7⟩ := ih u hmu hDu
      cases chain with
      | nil => simp at hc1
      | cons a tail =>
        have ha : a = u := by simpa using hc1
        subst ha
        have hallP : ∀ x ∈ a :: tail, x ∈ P ∧ P.indexOf x ≤ P.indexOf a := by
          intro x hx
          rcases List.mem_cons.mp hx with rfl | hxt
          · exact ⟨h2u, le_refl _⟩
          · obtain ⟨hxP, hxlt⟩ := hc4 x hxt
            refine ⟨hxP, ?_⟩
            by_cases hus : a = src
            · rw [if_pos hus] at hxlt; omega
            · rw [if_neg hus] at hxlt
              obtain ⟨u', c', h1', h2', h3', h4', h5', h6'⟩ := I.parentOk a hus hDu
              have htn' : (lget s.parent a).toNat = u' := by
                rw [h1']; exact Int.toNat_natCast u'
              rw [htn'] at hxlt
              have := h6' h2u
              omega
        have hwnot : w ∉ a :: tail := by
          intro hmem
          obtain ⟨hwP, hwle⟩ := hallP w hmem
          have := h6u hwP
          omega
        refine ⟨w :: a :: tail, rfl, ?_, ?_, ?_, ?_, ?_, ?_⟩
        · rw [List.getLast?_cons_cons]
          exact hc2
        · exact List.nodup_cons.mpr ⟨hwnot, hc3⟩
        · intro x hx
          obtain ⟨hxP, hxle⟩ := hallP x hx
          refine ⟨hxP, ?_⟩
          rw [if_neg hws, htn]
          omega
        · rw [List.reverse_cons]
          have hch := Chain.append_edge hc5
            (by rw [List.getLast?_reverse]; exact List.head?_cons) h4u
          rw [h5u]
          exact hch
        · intro fuel acc hlen
          cases fuel with
          | zero => exact absurd hlen (by simp)
          | succ f =>
            have hstep : buildPath s.parent (f + 1) ((w : Nat) : Int) acc =
                buildPath s.parent f (lget s.parent w) (acc ++ [w]) := by
              simp only [buildPath]
              rw [if_neg (by omega : ¬((w : Nat) : Int) = -1), Int.toNat_natCast]
            rw [hstep, h1u, hc6 f (acc ++ [w]) (by simp at hlen ⊢; omega)]
            simp
        · show parentIter s.parent ((a :: tail).length + 1) ((w : Nat) : Int) = -1
          simp only [parentIter]
          rw [if_neg (by omega : ¬((w : Nat) : Int) = -1), Int.toNat_natCast, h1u]
          exact hc7

/-- From any invariant state, the parent chain from a reached vertex yields a
source-to-vertex path of total weight `dist[w]`, within `Order` steps. -/
theorem reconstruct {g : Graph} {src : Nat} {P : List Nat} {s : PFState}
    (I : Inv g src P s) (w : Nat) (hw : lget s.dist w ≠ -1) :
    ∃ chain : List Nat,
      chain.head? = some w ∧ chain.getLast? = some src ∧
      chain.length ≤ g.Order ∧
      Chain g chain.reverse (lget s.dist w) ∧
      (∀ fuel acc, chain.length ≤ fuel →
        buildPath s.parent fuel (w : Int) acc = acc ++ chain) ∧
      parentIter s.parent chain.length (w : Int) = -1 := by
  obtain ⟨chain, h1, h2, h3, h4, h5, h6, h7⟩ := reconstruct_aux I _ w (le_refl _) hw
  refine ⟨chain, h1, h2, ?_, h5, h6, h7⟩
  have hwlt : w < g.Order := by
    refine I.memLt w ?_
    rcases I.distMem w hw with h | h
    · exact List.mem_append_left _ h
    · exact List.mem_append_right _ h
  refine length_le_of_nodup_lt h3 ?_
  intro x hx
  cases chain with
  | nil => simp at h1
  | cons a tail =>
    have ha : a = w := by simpa using h1
    rcases List.mem_cons.mp hx with rfl | hxt
    · rw [ha]; exact hwlt
    · exact I.memLt x (List.mem_append_left _ (h4 x hxt).1)

/-! ### Erasing a negative edge -/

theorem getDL_set_ne : ∀ (L : List (List (Nat × Int))) (i j : Nat)
    (x : List (Nat × Int)), i ≠ j → (L.set i x).getD j [] = L.getD j []
  | [], _, j, _, _ => by cases j <;> rfl
  | _ :: _, 0, 0, _, h => absurd rfl h
  | _ :: _, 0, _ + 1, _, _ => rfl
  | _ :: _, _ + 1, 0, _, _ => rfl
  | _ :: L, i + 1, j + 1, x, h => getDL_set_ne L i j x (fun hh => h (by omega))

theorem getDL_set_eq : ∀ (L : List (List (Nat × Int))) (i : Nat)
    (x : List (Nat × Int)), i < L.length → (L.set i x).getD i [] = x
  | [], i, _, h => absurd h (Nat.not_lt_zero i)
  | _ :: _, 0, _, _ => rfl
  | _ :: L, i + 1, x, h => getDL_set_eq L i x (Nat.lt_of_succ_lt_succ h)

theorem eraseEdge_Order (g : Graph) (u : Nat) (e : Nat × Int) :
    (g.eraseEdge u e).Order = g.Order := List.length_set ..

theorem eraseEdge_adjList_ne {g : Graph} {u x : Nat} {e : Nat × Int} (hx : x ≠ u) :
    (g.eraseEdge u e).adjList x = g.adjList x :=
  getDL_set_ne g.adj u x _ (fun h => hx h.symm)

theorem eraseEdge_adjList_eq {g : Graph} {u : Nat} {e : Nat × Int}
    (hu : u < g.Order) : (g.eraseEdge u e).adjList u = (g.adjList u).erase e :=
  getDL_set_eq g.adj u _ hu

theorem visit_def (g : Graph) (v : Nat) (s : PFState) :
    visit g v s = (g.adjList v).foldl (fun s e => pfDo v s e.1 e.2) s := rfl

theorem foldl_pfDo_erase {v w : Nat} {c : Int} (hc : c < 0) :
    ∀ (l : List (Nat × Int)) (s : PFState),
      (l.erase (w, c)).foldl (fun s e => pfDo v s e.1 e.2) s =
        l.foldl (fun s e => pfDo v s e.1 e.2) s
  | [], _ => rfl
  | e :: l, s => by
    by_cases he : e = (w, c)
    · subst he
      rw [List.erase_cons_head]
      simp only [List.foldl_cons]
      rw [pfDo_neg hc]
    · rw [List.erase_cons_tail (by simpa using he)]
      simp only [List.foldl_cons]
      exact foldl_pfDo_erase hc l (pfDo v s e.1 e.2)

theorem visit_eraseEdge {g : Graph} {u w : Nat} {c : Int} (hc : c < 0)
    (hmem : (w, c) ∈ g.adjList u) :
    ∀ (x : Nat) (s : PFState), visit (g.eraseEdge u (w, c)) x s = visit g x s := by
  intro x s
  by_cases hxu : x = u
  · subst hxu
    rw [visit_def, visit_def, eraseEdge_adjList_eq (Graph.adjList_ne_nil_lt hmem)]
    exact foldl_pfDo_erase hc _ s
  · rw [visit_def, visit_def, eraseEdge_adjList_ne hxu]

theorem loop_eraseEdge {g : Graph} {u w : Nat} {c : Int} (hc : c < 0)
    (hmem : (w, c) ∈ g.adjList u) :
    ∀ (fuel : Nat) (s : PFState),
      dijkstraLoop (g.eraseEdge u (w, c)) fuel s = dijkstraLoop g fuel s
  | 0, _ => rfl
  | fuel + 1, s => by
    rcases hp : popMin s.dist s.queue with _ | ⟨v, rest⟩
    · simp only [dijkstraLoop, hp]
    · simp only [dijkstraLoop, hp]
      rw [visit_eraseEdge hc hmem, loop_eraseEdge hc hmem fuel]

/-! ### Final-state summaries of the two runs -/

/-- The all-targets run ends with the invariant and an empty queue. -/
theorem SPRun_final {g : Graph} {v : Nat} (hwf : g.WF) (hv : v < g.Order) :
    Inv g v (SPRun g v).2 (SPRun g v).1 ∧ (SPRun g v).1.queue = [] := by
  have I0 := init_inv hwf hv
  obtain ⟨If, _⟩ := loop_inv g.Order [] _ I0
  exact ⟨by simpa using If, loop_empty g.Order [] _ I0 (by simp)⟩

/-- The single-target run ends either with the target never popped and the
queue drained, or at the pop of the target. -/
theorem STRun_post {g : Graph} {v t : Nat} (hwf : g.WF) (hv : v < g.Order) :
    (t ∉ (STRun g v t).2 ∧
        Inv g v (STRun g v t).2 (STRun g v t).1 ∧ (STRun g v t).1.queue = []) ∨
      (∃ p1 q, (STRun g v t).2 = p1 ++ [t] ∧ t ∉ p1 ∧
        Inv g v p1 ⟨(STRun g v t).1.dist, (STRun g v t).1.parent, q⟩ ∧
        popMin (STRun g v t).1.dist q = some (t, (STRun g v t).1.queue)) := by
  obtain ⟨_, hrec⟩ :=
    loopT_inv g.Order [] (initState g.Order v) (init_inv hwf hv) (by simp)
  rcases hrec with ⟨h1, h2, h3⟩ | ⟨p1, q, h1, h2, h3, h4⟩
  · exact Or.inl ⟨h1, by simpa using h2, h3 (by simp)⟩
  · exact Or.inr ⟨p1, q, h1, h2, by simpa using h3, h4⟩

/-! ### The claims -/

/-- C1: for every graph `g`, source `v` and vertex `w`, after
`ShortestPaths(g, v)` terminates, if `dist[w] != -1` then no path from `v` to
`w` using only edges of non-negative weight has total weight less than
`dist[w]`, and `dist[w]` is the weight of such a path. -/
theorem shortestPaths_optimal (g : Graph) (v w : Nat) (hwf : g.WF)
    (hv : v < g.Order) (hne : lget (ShortestPaths g v).2 w ≠ -1) :
    PathW g v w (lget (ShortestPaths g v).2 w) ∧
      ∀ d : Int, PathW g v w d → lget (ShortestPaths g v).2 w ≤ d := by
  obtain ⟨If, hq⟩ := SPRun_final hwf hv
  have hne' : lget (SPRun g v).1.dist w ≠ -1 := hne
  refine ⟨If.reach w hne', ?_⟩
  intro d hp
  have hmem : w ∈ (SPRun g v).2 := by
    rcases If.distMem w hne' with h | h
    · exact h
    · rw [hq] at h; cases h
  exact If.optP w hmem d hp

/-- C2: a negative-weight edge `(u, w, c)` encountered during relaxation is
skipped — `pathFinder.Do` leaves dist, parent and the queue unchanged — and
the dist array computed by `ShortestPaths` equals the one computed on the
same graph with that edge removed entirely. -/
theorem negEdge_skipped (g : Graph) (u w : Nat) (c : Int) (hc : c < 0)
    (hmem : (w, c) ∈ g.adjList u) :
    (∀ (v : Nat) (s : PFState), pfDo v s w c = s) ∧
      ∀ src : Nat,
        (ShortestPaths (g.eraseEdge u (w, c)) src).2 = (ShortestPaths g src).2 := by
  refine ⟨fun v s => pfDo_neg hc, ?_⟩
  intro src
  show (SPRun (g.eraseEdge u (w, c)) src).1.dist = (SPRun g src).1.dist
  have h1 : SPRun (g.eraseEdge u (w, c)) src = SPRun g src := by
    show dijkstraLoop (g.eraseEdge u (w, c)) (g.eraseEdge u (w, c)).Order
        (initState (g.eraseEdge u (w, c)).Order src) = _
    rw [eraseEdge_Order, loop_eraseEdge hc hmem]
    rfl
  rw [h1]

/-- C3: in a run of `ShortestPaths` on a graph with non-negative edge
weights, once a vertex has been popped from the cost queue (it appears in the
pop sequence of the first `k` iterations), its dist entry is unchanged at
every later iteration `j ≥ k`. -/
theorem labelSetting_popped_frozen (g : Graph) (v : Nat) (hwf : g.WF)
    (hv : v < g.Order) (hnn : g.Nonneg) :
    ∀ k j u, k ≤ j → u ∈ (dijkstraLoop g k (initState g.Order v)).2 →
      lget (dijkstraLoop g j (initState g.Order v)).1.dist u =
        lget (dijkstraLoop g k (initState g.Order v)).1.dist u := by
  intro k j u hkj hu
  obtain ⟨Ik, _⟩ := loop_inv k [] _ (init_inv hwf hv)
  have Ik' : Inv g v (dijkstraLoop g k (initState g.Order v)).2
      (dijkstraLoop g k (initState g.Order v)).1 := by simpa using Ik
  have hcomp := @loop_add g k (j - k) (initState g.Order v)
  have hj : k + (j - k) = j := by omega
  rw [hj] at hcomp
  rw [hcomp]
  obtain ⟨_, hpres⟩ := loop_inv (j - k) _ _ Ik'
  exact hpres u hu

/-- C5: if no path of non-negative edges connects `v` to `w`, the final
`dist[w]` is `-1` and `ShortestPath(g, v, w)` returns the empty path with
distance `-1`, as a normal result. -/
theorem unreachable_normal (g : Graph) (v w : Nat) (hwf : g.WF)
    (hv : v < g.Order) (hnp : ∀ d : Int, ¬PathW g v w d) :
    lget (shortestPathWithQueue g v w).2 w = -1 ∧ ShortestPath g v w = ([], -1) := by
  have hdist : lget (STRun g v w).1.dist w = -1 := by
    rcases STRun_post hwf hv (t := w) with ⟨hnt, If, hq⟩ | ⟨p1, q, h1, h2, I', hpop⟩
    · by_contra hne
      exact hnp _ (If.reach w hne)
    · exfalso
      have hne := I'.dist_ne_neg_one (List.mem_append_right _ (popMin_mem hpop))
      exact hnp _ (I'.reach w hne)
  have hdist2 : lget (shortestPathWithQueue g v w).2 w = -1 := hdist
  refine ⟨hdist2, ?_⟩
  show ShortestPathWithQueue g v w = ([], -1)
  simp [ShortestPathWithQueue, hdist2]

/-- C7: the relaxation engine starts from `dist[i] = parent[i] = -1` with
`dist[v0] = 0`; on first discovery (`dist[w] == -1`, weight `d ≥ 0`) it sets
`parent[w] = v`, `dist[w] = alt` and pushes `w` with cost `alt`; on strict
improvement (`alt < dist[w]`) it sets `parent[w] = v`, `dist[w] = alt` and
decrease-keys `w` to `alt` without a new queue entry. -/
theorem relaxation_init_update (g : Graph) (v0 : Nat) (hv : v0 < g.Order) :
    (∀ i : Nat, i < g.Order → lget (initState g.Order v0).parent i = -1) ∧
      lget (initState g.Order v0).dist v0 = 0 ∧
      (∀ i : Nat, i < g.Order → i ≠ v0 → lget (initState g.Order v0).dist i = -1) ∧
      (∀ (v : Nat) (s : PFState) (w : Nat) (d : Int), 0 ≤ d → lget s.dist w = -1 →
        pfDo v s w d =
          ⟨lset s.dist w (lget s.dist v + d), lset s.parent w (v : Int),
            s.queue ++ [w]⟩) ∧
      (∀ (v : Nat) (s : PFState) (w : Nat) (d : Int), 0 ≤ d → lget s.dist w ≠ -1 →
        lget s.dist v + d < lget s.dist w →
        pfDo v s w d =
          ⟨lset s.dist w (lget s.dist v + d), lset s.parent w (v : Int), s.queue⟩) := by
  refine ⟨?_, ?_, ?_, ?_, ?_⟩
  · intro i _
    exact lget_replicate ..
  · exact lget_lset_eq _ _ _ (by rw [List.length_replicate]; exact hv)
  · intro i _ hne
    show lget (lset (List.replicate g.Order (-1)) v0 0) i = -1
    rw [lget_lset_ne _ _ _ _ (fun h => hne h.symm), lget_replicate]
  · intro v s w d hd hw
    exact pfDo_discover (by omega) hw
  · intro v s w d hd hw hlt
    exact pfDo_improve (by omega) hw hlt

/-- C8: in a run of `ShortestPaths` on a graph whose edges all have
non-negative weight, the sequence of vertices popped from the cost queue is
non-decreasing in final distance. -/
theorem pop_monotone (g : Graph) (v : Nat) (hwf : g.WF) (hv : v < g.Order)
    (hnn : g.Nonneg) :
    (SPRun g v).2.Pairwise
      (fun a b => lget (SPRun g v).1.dist a ≤ lget (SPRun g v).1.dist b) := by
  obtain ⟨If, _⟩ := SPRun_final hwf hv
  exact If.sortedP

/-- C4: when `w` is reachable from `v` over non-negative edges, the path
returned by `ShortestPath(g, v, w)` starts at `v`, ends at `w`, its
consecutive elements are joined by edges of the graph, and those edge weights
sum to the returned distance. -/
theorem shortestPath_consistent (g : Graph) (v w : Nat) (hwf : g.WF)
    (hv : v < g.Order) (hw : w < g.Order) (hreach : ∃ d : Int, PathW g v w d) :
    (ShortestPath g v w).1.head? = some v ∧
      (ShortestPath g v w).1.getLast? = some w ∧
      Chain g (ShortestPath g v w).1 (ShortestPath g v w).2 := by
  rcases STRun_post hwf hv (t := w) with ⟨hnt, If, hq⟩ | ⟨p1, q, hp1, hnp1, I', hpop⟩
  · exfalso
    obtain ⟨d, hpath⟩ := hreach
    have hne := complete_of_empty If hq w d hpath
    rcases If.distMem w hne with h | h
    · exact hnt h
    · rw [hq] at h; cases h
  · have hne : lget (STRun g v w).1.dist w ≠ -1 :=
      I'.dist_ne_neg_one (List.mem_append_right _ (popMin_mem hpop))
    obtain ⟨chain, hh, hl, hlen, hch, hbp, _⟩ := reconstruct I' w hne
    have hne2 : lget (shortestPathWithQueue g v w).2 w ≠ -1 := hne
    have hval : ShortestPath g v w =
        ((buildPath (shortestPathWithQueue g v w).1 (g.Order + 1)
            ((w : Nat) : Int) []).reverse,
          lget (shortestPathWithQueue g v w).2 w) := by
      simp [ShortestPath, ShortestPathWithQueue, hne2]
    have hpe : buildPath (shortestPathWithQueue g v w).1 (g.Order + 1)
        ((w : Nat) : Int) [] = chain := by
      have h := hbp (g.Order + 1) [] (by omega)
      simpa [shortestPathWithQueue] using h
    rw [hval, hpe]
    refine ⟨?_, ?_, ?_⟩
    · show chain.reverse.head? = some v
      rw [List.head?_reverse]
      exact hl
    · show chain.reverse.getLast? = some w
      rw [List.getLast?_reverse]
      exact hh
    · exact hch

/-- C6: the single-target loop returns the moment the target `t` is popped —
`t` can only be the last element of the pop sequence, nothing is popped after
it — and the distance it returns for `t` equals the final distance computed
by the full `ShortestPaths` run. -/
theorem earlyExit_target (g : Graph) (v t : Nat) (hwf : g.WF) (hv : v < g.Order)
    (ht : t < g.Order) :
    (t ∈ (STRun g v t).2 → ∃ p1, (STRun g v t).2 = p1 ++ [t] ∧ t ∉ p1) ∧
      lget (shortestPathWithQueue g v t).2 t = lget (ShortestPaths g v).2 t := by
  obtain ⟨IF, hqF⟩ := SPRun_final hwf hv
  rcases STRun_post hwf hv (t := t) with ⟨hnt, If, hq⟩ | ⟨p1, q, hp1, hnp1, I', hpop⟩
  · constructor
    · intro hmem
      exact absurd hmem hnt
    · have hdT : lget (STRun g v t).1.dist t = -1 := by
        by_contra hne
        rcases If.distMem t hne with h | h
        · exact hnt h
        · rw [hq] at h; cases h
      have hdF : lget (SPRun g v).1.dist t = -1 := by
        by_contra hne
        have hpath := IF.reach t hne
        exact complete_of_empty If hq t _ hpath hdT
      show lget (STRun g v t).1.dist t = lget (SPRun g v).1.dist t
      rw [hdT, hdF]
  · constructor
    · intro _
      exact ⟨p1, hp1, hnp1⟩
    · have hneT : lget (STRun g v t).1.dist t ≠ -1 :=
        I'.dist_ne_neg_one (List.mem_append_right _ (popMin_mem hpop))
      have hreachT := I'.reach t hneT
      have hoptT := pop_opt I' hpop
      have hneF : lget (SPRun g v).1.dist t ≠ -1 :=
        complete_of_empty IF hqF t _ hreachT
      have hreachF := IF.reach t hneF
      have hmemF : t ∈ (SPRun g v).2 := by
        rcases IF.distMem t hneF with h | h
        · exact h
        · rw [hqF] at h; cases h
      have hoptF := IF.optP t hmemF
      exact le_antisymm (hoptT _ hreachF) (hoptF _ hreachT)

/-- C9: for a valid vertex `v`, `ShortestPath(g, v, v)` returns the
single-element path `[v]` and distance `0`. -/
theorem source_eq_target (g : Graph) (v : Nat) (hv : v < g.Order) :
    ShortestPath g v v = ([v], 0) := by
  obtain ⟨m, hm⟩ : ∃ m, g.Order = m + 1 := ⟨g.Order - 1, by omega⟩
  have hd0 : lget (initState g.Order v).dist v = 0 :=
    lget_lset_eq _ _ _ (by rw [List.length_replicate]; exact hv)
  have hpar : lget (initState g.Order v).parent v = -1 := lget_replicate ..
  have hpop : popMin (initState g.Order v).dist (initState g.Order v).queue =
      some (v, []) := rfl
  have hrun : STRun g v v =
      (⟨(initState g.Order v).dist, (initState g.Order v).parent, []⟩, [v]) := by
    show dijkstraLoopT g v g.Order (initState g.Order v) = _
    rw [hm] at hpop ⊢
    simp [dijkstraLoopT, hpop]
  have hdist : lget (shortestPathWithQueue g v v).2 v = 0 := by
    show lget (STRun g v v).1.dist v = 0
    rw [hrun]
    exact hd0
  have hne : lget (shortestPathWithQueue g v v).2 v ≠ -1 := by
    rw [hdist]
    decide
  have hbuild : buildPath (shortestPathWithQueue g v v).1 (g.Order + 1)
      ((v : Nat) : Int) [] = [v] := by
    show buildPath (STRun g v v).1.parent (g.Order + 1) ((v : Nat) : Int) [] = [v]
    rw [hrun]
    show buildPath (initState g.Order v).parent (g.Order + 1) ((v : Nat) : Int) [] = [v]
    simp only [buildPath]
    rw [if_neg (by omega : ¬((v : Nat) : Int) = -1), Int.toNat_natCast, hpar,
      buildPath_stop]
    rfl
  have hval : ShortestPath g v v =
      ((buildPath (shortestPathWithQueue g v v).1 (g.Order + 1)
          ((v : Nat) : Int) []).reverse,
        lget (shortestPathWithQueue g v v).2 v) := by
    simp [ShortestPath, ShortestPathWithQueue, hne]
  rw [hval, hbuild, hdist]
  simp

/-- C10: after the single-target search, the parent links are acyclic: from
any vertex `x` with `dist[x] != -1`, iterating `parent` reaches the sentinel
`-1` within `Order` steps, so the reconstruction loop terminates. -/
theorem parent_acyclic (g : Graph) (v t : Nat) (hwf : g.WF) (hv : v < g.Order) :
    ∀ x : Nat, lget (shortestPathWithQueue g v t).2 x ≠ -1 →
      ∃ k, k ≤ g.Order ∧
        parentIter (shortestPathWithQueue g v t).1 k ((x : Nat) : Int) = -1 := by
  intro x hx
  rcases STRun_post hwf hv (t := t) with ⟨hnt, If, hq⟩ | ⟨p1, q, hp1, hnp1, I', hpop⟩
  · obtain ⟨chain, _, _, hlen, _, _, hpi⟩ := reconstruct If x hx
    exact ⟨chain.length, hlen, hpi⟩
  · obtain ⟨chain, _, _, hlen, _, _, hpi⟩ := reconstruct I' x hx
    exact ⟨chain.length, hlen, hpi⟩

/-! ### Concrete graphs and witnesses -/

/-- The spec's scenario 1 graph: edges `0→1(4)`, `0→2(1)`, `2→1(1)`, `1→3(1)`. -/
def exG : Graph := ⟨[[(1, 4), (2, 1)], [(3, 1)], [(1, 1)], []]⟩

/-- Scenario 1 plus a disconnected vertex `4`. -/
def exG2 : Graph := ⟨[[(1, 4), (2, 1)], [(3, 1)], [(1, 1)], [], []]⟩

/-- A two-vertex graph with one negative edge `0→1(-1)`. -/
def exGneg : Graph := ⟨[[(1, -1)], []]⟩

example : (ShortestPaths exG 0).2 = [0, 2, 1, 3] := by decide

example : (ShortestPaths exG 0).1 = [-1, 2, 0, 1] := by decide

example : ShortestPath exG 0 3 = ([0, 2, 1, 3], 3) := by decide

example : ShortestPath exG2 0 4 = ([], -1) := by decide

example : (ShortestPaths exGneg 0).2 = [0, -1] := by decide

theorem shortestPaths_optimal_witness :
    exG.WF ∧ 0 < exG.Order ∧ lget (ShortestPaths exG 0).2 3 ≠ -1 ∧
      (PathW exG 0 3 (lget (ShortestPaths exG 0).2 3) ∧
        ∀ d : Int, PathW exG 0 3 d → lget (ShortestPaths exG 0).2 3 ≤ d) :=
  ⟨by decide, by decide, by decide,
    shortestPaths_optimal exG 0 3 (by decide) (by decide) (by decide)⟩

theorem negEdge_skipped_witness :
    ((-1 : Int) < 0 ∧ ((1 : Nat), (-1 : Int)) ∈ exGneg.adjList 0) ∧
      ((∀ (v : Nat) (s : PFState), pfDo v s 1 (-1) = s) ∧
        ∀ src : Nat, (ShortestPaths (exGneg.eraseEdge 0 (1, -1)) src).2 =
          (ShortestPaths exGneg src).2) :=
  ⟨⟨by decide, by decide⟩, negEdge_skipped exGneg 0 1 (-1) (by decide) (by decide)⟩

theorem labelSetting_popped_frozen_witness :
    exG.WF ∧ 0 < exG.Order ∧ exG.Nonneg ∧
      (∀ k j u, k ≤ j → u ∈ (dijkstraLoop exG k (initState exG.Order 0)).2 →
        lget (dijkstraLoop exG j (initState exG.Order 0)).1.dist u =
          lget (dijkstraLoop exG k (initState exG.Order 0)).1.dist u) :=
  ⟨by decide, by decide, by decide,
    labelSetting_popped_frozen exG 0 (by decide) (by decide) (by decide)⟩

theorem shortestPath_consistent_witness :
    exG.WF ∧ 0 < exG.Order ∧ 3 < exG.Order ∧ (∃ d : Int, PathW exG 0 3 d) ∧
      ((ShortestPath exG 0 3).1.head? = some 0 ∧
        (ShortestPath exG 0 3).1.getLast? = some 3 ∧
        Chain exG (ShortestPath exG 0 3).1 (ShortestPath exG 0 3).2) := by
  have hstep1 : PathW exG 0 1 (0 + 4) :=
    @PathW.cons exG 0 0 1 4 0 PathW.nil (by decide) (by decide)
  have hpath : PathW exG 0 3 ((0 + 4) + 1) :=
    @PathW.cons exG 0 1 3 1 (0 + 4) hstep1 (by decide) (by decide)
  exact ⟨by decide, by decide, by decide, ⟨_, hpath⟩,
    shortestPath_consistent exG 0 3 (by decide) (by decide) (by decide) ⟨_, hpath⟩⟩

theorem unreachable_normal_witness :
    exG2.WF ∧ 0 < exG2.Order ∧ (∀ d : Int, ¬PathW exG2 0 4 d) ∧
      (lget (shortestPathWithQueue exG2 0 4).2 4 = -1 ∧
        ShortestPath exG2 0 4 = ([], -1)) := by
  have hno : ∀ d : Int, ¬PathW exG2 0 4 d := by
    intro d hp
    cases hp with
    | @cons u w' c d' hp' hmem hc =>
      have hu : u < 5 := Graph.adjList_ne_nil_lt hmem
      interval_cases u <;> simp [exG2, Graph.adjList] at hmem
  exact ⟨by decide, by decide, hno,
    unreachable_normal exG2 0 4 (by decide) (by decide) hno⟩

theorem earlyExit_target_witness :
    exG.WF ∧ 0 < exG.Order ∧ 3 < exG.Order ∧
      ((3 ∈ (STRun exG 0 3).2 → ∃ p1, (STRun exG 0 3).2 = p1 ++ [3] ∧ 3 ∉ p1) ∧
        lget (shortestPathWithQueue exG 0 3).2 3 = lget (ShortestPaths exG 0).2 3) :=
  ⟨by decide, by decide, by decide,
    earlyExit_target exG 0 3 (by decide) (by decide) (by decide)⟩

theorem relaxation_init_update_witness :
    0 < exG.Order ∧
      ((∀ i : Nat, i < exG.Order → lget (initState exG.Order 0).parent i = -1) ∧
        lget (initState exG.Order 0).dist 0 = 0 ∧
        (∀ i : Nat, i < exG.Order → i ≠ 0 → lget (initState exG.Order 0).dist i = -1) ∧
        (∀ (v : Nat) (s : PFState) (w : Nat) (d : Int), 0 ≤ d → lget s.dist w = -1 →
          pfDo v s w d =
            ⟨lset s.dist w (lget s.dist v + d), lset s.parent w (v : Int),
              s.queue ++ [w]⟩) ∧
        (∀ (v : Nat) (s : PFState) (w : Nat) (d : Int), 0 ≤ d → lget s.dist w ≠ -1 →
          lget s.dist v + d < lget s.dist w →
          pfDo v s w d =
            ⟨lset s.dist w (lget s.dist v + d), lset s.parent w (v : Int),
              s.queue⟩)) :=
  ⟨by decide, relaxation_init_update exG 0 (by decide)⟩

theorem pop_monotone_witness :
    exG.WF ∧ 0 < exG.Order ∧ exG.Nonneg ∧
      (SPRun exG 0).2.Pairwise
        (fun a b => lget (SPRun exG 0).1.dist a ≤ lget (SPRun exG 0).1.dist b) :=
  ⟨by decide, by decide, by decide,
    pop_monotone exG 0 (by decide) (by decide) (by decide)⟩

theorem source_eq_target_witness :
    0 < exG.Order ∧ ShortestPath exG 0 0 = ([0], 0) :=
  ⟨by decide, source_eq_target exG 0 (by decide)⟩

theorem parent_acyclic_witness :
    exG.WF ∧ 0 < exG.Order ∧
      (∀ x : Nat, lget (shortestPathWithQueue exG 0 3).2 x ≠ -1 →
        ∃ k, k ≤ exG.Order ∧
          parentIter (shortestPathWithQueue exG 0 3).1 k ((x : Nat) : Int) = -1) :=
  ⟨by decide, by decide, parent_acyclic exG 0 3 (by decide) (by decide)⟩

end GraphSP
